import Mathlib

/-!
Verification of the `holt59::fraction` rational-number header
(`src/cpp/fraction.hpp`) against its specification.

The integer domain `T` is modelled as `Int` (mathematical integers: the spec
leaves overflow to the caller, so we work in the unbounded domain).  C++
integer division truncates toward zero, modelled by `Int.tdiv`; a C++
division by zero is undefined behaviour and is modelled by returning `none`.
-/

namespace Holt59

/-- The C++14 fallback of the header, `gcd(m, n) = n == 0 ? m : gcd(n, m % n)`.
It is only ever called on the two absolute values, hence on `Nat`. -/
def gcdRec (m n : Nat) : Nat :=
  if h : n = 0 then m else gcdRec n (m % n)
termination_by n
decreasing_by exact Nat.mod_lt _ (Nat.pos_of_ne_zero h)

/-- Both branches of the `#if` in the header agree: the recursive fallback
computes the mathematical gcd (`std::gcd` of the C++17 branch). -/
theorem gcdRec_eq_gcd (m n : Nat) : gcdRec m n = Nat.gcd m n := by
  induction n using Nat.strong_induction_on generalizing m with
  | _ n ih =>
    by_cases h : n = 0
    · subst h
      rw [gcdRec]
      simp
    · rw [gcdRec]
      rw [dif_neg h]
      rw [ih (m % n) (Nat.mod_lt _ (Nat.pos_of_ne_zero h)) n]
      rw [Nat.gcd_comm n (m % n), ← Nat.gcd_rec n m, Nat.gcd_comm n m]

/-- The value type `fraction<T>`: the two fields `num_` and `den_`, exposed
read-only through the accessors `num()` and `den()`. -/
@[ext]
structure fraction where
  num : Int
  den : Int
deriving DecidableEq

/-- Member `fraction::normalize_()`:
`auto g = gcd(std::abs(num_), std::abs(den_));`
`auto m = den_ < 0 ? -1 : 1;`
`num_ = num_ / g * m; den_ = den_ / g * m;`
`Int.gcd n d` is by definition `Nat.gcd` of the two absolute values.  When
`g == 0` (that is, `num_ == 0` and `den_ == 0`) both updates divide by zero,
which is undefined behaviour in C++; that case is modelled as `none`. -/
def normalize (n d : Int) : Option fraction :=
  let g : Int := (Int.gcd n d : Int)
  if g = 0 then none
  else
    let m : Int := if d < 0 then -1 else 1
    some ⟨n.tdiv g * m, d.tdiv g * m⟩

/-- Constructor `fraction(num, den)` (defaults `num = 0`, `den = 1`): stores
the pair then calls `normalize_()`. -/
def mk (n d : Int) : Option fraction :=
  normalize n d

/-- Static member `fraction::zero()`: the default-constructed value. -/
def zero : Option fraction :=
  mk 0 1

/-- Member `operator+=(fraction const&)`. -/
def add (a b : fraction) : Option fraction :=
  normalize (a.num * b.den + a.den * b.num) (a.den * b.den)

/-- Member `operator-=(fraction const&)`. -/
def sub (a b : fraction) : Option fraction :=
  normalize (a.num * b.den - a.den * b.num) (a.den * b.den)

/-- Member `operator*=(fraction const&)`. -/
def mul (a b : fraction) : Option fraction :=
  normalize (a.num * b.num) (a.den * b.den)

/-- Member `operator/=(fraction const&)`. -/
def div (a b : fraction) : Option fraction :=
  normalize (a.num * b.den) (a.den * b.num)

/-- Member `operator+=(value_type const&)`: lifts through `fraction(rhs)`. -/
def addInt (a : fraction) (v : Int) : Option fraction :=
  (mk v 1).bind (fun b => add a b)

/-- Member `operator-=(value_type const&)`. -/
def subInt (a : fraction) (v : Int) : Option fraction :=
  (mk v 1).bind (fun b => sub a b)

/-- Member `operator*=(value_type const&)`. -/
def mulInt (a : fraction) (v : Int) : Option fraction :=
  (mk v 1).bind (fun b => mul a b)

/-- Member `operator/=(value_type const&)`. -/
def divInt (a : fraction) (v : Int) : Option fraction :=
  (mk v 1).bind (fun b => div a b)

/-- Unary `operator+`: returns `*this` unchanged. -/
def pos (f : fraction) : fraction :=
  f

/-- Unary `operator-`: constructs `fraction(-num_, den_)`. -/
def neg (f : fraction) : Option fraction :=
  mk (-f.num) f.den

/-- Member `operator!`: `num_ != 0`. -/
def lnot (f : fraction) : Bool :=
  f.num != 0

/-- Member `explicit operator bool`: `num_ == 0`. -/
def toBool (f : fraction) : Bool :=
  f.num == 0

/-- Member `is_integral()`: `den_ == 1`. -/
def is_integral (f : fraction) : Bool :=
  f.den == 1

/-- Member `is_legal()`: `den_ != 0`. -/
def is_legal (f : fraction) : Bool :=
  f.den != 0

/-- Free `operator==`: componentwise on the stored pairs. -/
def beq (l r : fraction) : Bool :=
  l.num == r.num && l.den == r.den

/-- Free `operator!=`. -/
def bne (l r : fraction) : Bool :=
  l.num != r.num || l.den != r.den

/-- Free `operator<`: `lhs.num() * rhs.den() < rhs.num() * lhs.den()`. -/
def lt (l r : fraction) : Bool :=
  decide (l.num * r.den < r.num * l.den)

/-- Free `operator<=`. -/
def le (l r : fraction) : Bool :=
  decide (l.num * r.den ≤ r.num * l.den)

/-- Free `operator>`. -/
def gt (l r : fraction) : Bool :=
  decide (l.num * r.den > r.num * l.den)

/-- Free `operator>=`. -/
def ge (l r : fraction) : Bool :=
  decide (l.num * r.den ≥ r.num * l.den)

/-- Values reachable through the public constructors and operations of the
class: any construction from a stored pair (this covers the default
constructor, construction from one integer, `zero()`, and assignment from a
`value_type`), the four binary operators in both overloads, and the unary
signs.  Copy and move construction and assignment are identities and add
nothing. -/
inductive Reachable : fraction → Prop where
  | ctor : ∀ (n d : Int) (f : fraction), mk n d = some f → Reachable f
  | add' : ∀ (a b f : fraction), Reachable a → Reachable b → add a b = some f → Reachable f
  | sub' : ∀ (a b f : fraction), Reachable a → Reachable b → sub a b = some f → Reachable f
  | mul' : ∀ (a b f : fraction), Reachable a → Reachable b → mul a b = some f → Reachable f
  | div' : ∀ (a b f : fraction), Reachable a → Reachable b → div a b = some f → Reachable f
  | addInt' : ∀ (a : fraction) (v : Int) (f : fraction), Reachable a → addInt a v = some f → Reachable f
  | subInt' : ∀ (a : fraction) (v : Int) (f : fraction), Reachable a → subInt a v = some f → Reachable f
  | mulInt' : ∀ (a : fraction) (v : Int) (f : fraction), Reachable a → mulInt a v = some f → Reachable f
  | divInt' : ∀ (a : fraction) (v : Int) (f : fraction), Reachable a → divInt a v = some f → Reachable f
  | pos' : ∀ (a : fraction), Reachable a → Reachable (pos a)
  | neg' : ∀ (a f : fraction), Reachable a → neg a = some f → Reachable f

/-- The invariant of §3 for a legal value: positive denominator and lowest
terms (`Int.gcd` is the gcd of the two absolute values). -/
@[reducible]
def Canonical (f : fraction) : Prop :=
  Int.gcd f.num f.den = 1 ∧ 0 < f.den

/-! Basic facts about `normalize`. -/

theorem normalize_eq_none_iff (n d : Int) : normalize n d = none ↔ n = 0 ∧ d = 0 := by
  constructor
  · intro h
    by_contra hc
    have hg : Int.gcd n d ≠ 0 := fun h0 => hc (Int.gcd_eq_zero_iff.mp h0)
    have hg' : (Int.gcd n d : Int) ≠ 0 := Int.natCast_ne_zero.mpr hg
    simp [normalize, hg'] at h
  · rintro ⟨rfl, rfl⟩
    simp [normalize]

theorem normalize_eq_some (n d : Int) (h : ¬(n = 0 ∧ d = 0)) :
    normalize n d = some ⟨n.tdiv (Int.gcd n d) * (if d < 0 then -1 else 1),
                          d.tdiv (Int.gcd n d) * (if d < 0 then -1 else 1)⟩ := by
  have hg : Int.gcd n d ≠ 0 := fun h0 => h (Int.gcd_eq_zero_iff.mp h0)
  have hg' : (Int.gcd n d : Int) ≠ 0 := Int.natCast_ne_zero.mpr hg
  simp [normalize, hg']

/-- Soundness of `normalize` on a nonzero denominator: it succeeds and
returns a canonical pair representing the same rational value. -/
theorem normalize_sound (n d : Int) (hd : d ≠ 0) :
    ∃ f, normalize n d = some f ∧ 0 < f.den ∧ Int.gcd f.num f.den = 1 ∧
      f.num * d = n * f.den := by
  have hGpos : 0 < Int.gcd n d := Int.gcd_pos_of_ne_zero_right n hd
  have hGn : ((Int.gcd n d : Int)) ∣ n := Int.gcd_dvd_left
  have hGd : ((Int.gcd n d : Int)) ∣ d := Int.gcd_dvd_right
  have htn : n.tdiv (Int.gcd n d) = n / (Int.gcd n d) := Int.tdiv_eq_ediv_of_dvd hGn
  have htd : d.tdiv (Int.gcd n d) = d / (Int.gcd n d) := Int.tdiv_eq_ediv_of_dvd hGd
  have hnn : ((Int.gcd n d : Int)) * (n / (Int.gcd n d)) = n := Int.mul_ediv_cancel' hGn
  have hdd : ((Int.gcd n d : Int)) * (d / (Int.gcd n d)) = d := Int.mul_ediv_cancel' hGd
  have hcop : Int.gcd (n / (Int.gcd n d)) (d / (Int.gcd n d)) = 1 :=
    Int.gcd_div_gcd_div_gcd hGpos
  have hsome := normalize_eq_some n d (fun hc => hd hc.2)
  refine ⟨_, hsome, ?_, ?_, ?_⟩
  · -- positive denominator
    show 0 < d.tdiv (Int.gcd n d) * (if d < 0 then -1 else 1)
    rw [htd]
    by_cases hneg : d < 0
    · rw [if_pos hneg]
      have hlt : d / (Int.gcd n d) < 0 := by
        rcases lt_trichotomy (d / (Int.gcd n d)) 0 with h | h | h
        · exact h
        · exfalso; apply hd; rw [← hdd, h, mul_zero]
        · exfalso
          have : 0 < ((Int.gcd n d : Int)) * (d / (Int.gcd n d)) :=
            mul_pos (by exact_mod_cast hGpos) h
          rw [hdd] at this
          exact absurd this (not_lt.mpr (le_of_lt hneg))
      nlinarith
    · rw [if_neg hneg]
      have hdpos : 0 < d := lt_of_le_of_ne (not_lt.mp hneg) (Ne.symm hd)
      have := Int.ediv_pos_of_pos_of_dvd hdpos (by positivity) hGd
      simpa using this
  · -- lowest terms
    show Int.gcd (n.tdiv (Int.gcd n d) * (if d < 0 then -1 else 1))
        (d.tdiv (Int.gcd n d) * (if d < 0 then -1 else 1)) = 1
    rw [htn, htd]
    by_cases hneg : d < 0
    · rw [if_pos hneg]
      simpa [mul_neg_one, Int.neg_gcd, Int.gcd_neg] using hcop
    · rw [if_neg hneg]
      simpa using hcop
  · -- same rational value
    show n.tdiv (Int.gcd n d) * (if d < 0 then -1 else 1) * d
        = n * (d.tdiv (Int.gcd n d) * (if d < 0 then -1 else 1))
    rw [htn, htd]
    linear_combination (-(n / ((Int.gcd n d : Int))) * (if d < 0 then (-1 : Int) else 1)) * hdd +
      ((d / ((Int.gcd n d : Int))) * (if d < 0 then (-1 : Int) else 1)) * hnn

/-- If the stored denominator is zero, normalization either fails (when the
numerator is zero as well) or keeps the denominator zero. -/
theorem normalize_den_eq_zero (n : Int) (f : fraction) (h : normalize n 0 = some f) :
    f.den = 0 := by
  by_cases hn : n = 0
  · subst hn
    rw [(normalize_eq_none_iff 0 0).mpr ⟨rfl, rfl⟩] at h
    exact absurd h (by simp)
  · rw [normalize_eq_some n 0 (fun hc => hn hc.1)] at h
    cases h
    simp

/-- A successful normalization with a nonzero resulting denominator is
canonical.  This is the single chokepoint every mutating operation uses. -/
theorem normalize_canonical (n d : Int) (f : fraction) (h : normalize n d = some f)
    (hden : f.den ≠ 0) : Int.gcd f.num f.den = 1 ∧ 0 < f.den := by
  by_cases hd : d = 0
  · subst hd
    exact absurd (normalize_den_eq_zero n f h) hden
  · obtain ⟨f', h', hpos, hgcd, _⟩ := normalize_sound n d hd
    rw [h] at h'
    cases h'
    exact ⟨hgcd, hpos⟩

/-- A canonical value with zero numerator has denominator one, because
`gcd(0, d) = |d|`. -/
theorem den_one_of_num_zero (f : fraction) (hg : Int.gcd f.num f.den = 1)
    (hpos : 0 < f.den) (h0 : f.num = 0) : f.den = 1 := by
  rw [h0, Int.gcd_zero_left] at hg
  rcases Int.natAbs_eq_iff.mp hg with h | h
  · simpa using h
  · rw [h] at hpos
    exact absurd hpos (by decide)

/-- Uniqueness of the canonical representative: two pairs in lowest terms
with positive denominators representing the same rational value are equal. -/
theorem canonical_eq_of_cross (p q r s : Int) (hq : 0 < q) (hs : 0 < s)
    (hg : Int.gcd p q = 1) (hg' : Int.gcd r s = 1) (hc : p * s = r * q) :
    p = r ∧ q = s := by
  have cop : IsCoprime p q := Int.gcd_eq_one_iff_coprime.mp hg
  have cop' : IsCoprime r s := Int.gcd_eq_one_iff_coprime.mp hg'
  have hqs : q ∣ s := by
    have hdvd : q ∣ p * s := ⟨r, by linarith [hc]⟩
    exact cop.symm.dvd_of_dvd_mul_left hdvd
  have hsq : s ∣ q := by
    have hdvd : s ∣ r * q := ⟨p, by linarith [hc]⟩
    exact cop'.symm.dvd_of_dvd_mul_left hdvd
  have hqeq : q = s := Int.dvd_antisymm (le_of_lt hq) (le_of_lt hs) hqs hsq
  refine ⟨?_, hqeq⟩
  rw [hqeq] at hc
  exact mul_right_cancel₀ (ne_of_gt hs) hc

/-- Construction from a single integer `v` (`fraction(v)`, hence the scalar
lift `(v, 1)` of every scalar overload) succeeds and is the identity pair. -/
theorem mk_int_one (v : Int) : mk v 1 = some ⟨v, 1⟩ := by
  have hg : Int.gcd v 1 = 1 := by
    simp [Int.gcd]
  rw [mk, normalize_eq_some v 1 (fun hc => one_ne_zero hc.2), hg]
  simp

/-- Normalizing a pair with a zero denominator and a nonzero numerator keeps
the denominator zero and reduces the numerator to its sign. -/
theorem normalize_num_ne_zero_den_zero (n : Int) (hn : n ≠ 0) :
    normalize n 0 = some ⟨Int.sign n, 0⟩ := by
  have hA : ((n.natAbs : Int)) ∣ n := Int.natAbs_dvd.mpr dvd_rfl
  have habs : (Int.gcd n 0 : Int) = (n.natAbs : Int) := by
    rw [Int.gcd_zero_right]
  rw [normalize_eq_some n 0 (fun hc => hn hc.1), habs]
  have ht : n.tdiv (n.natAbs : Int) = Int.sign n := by
    rw [Int.tdiv_eq_ediv_of_dvd hA, ← Int.abs_eq_natAbs, ← Int.sign_eq_ediv_abs]
  have hz : (0 : Int).tdiv (n.natAbs : Int) = 0 := Int.zero_tdiv _
  rw [if_neg (show ¬((0 : Int) < 0) by decide), mul_one, mul_one, ht, hz]

/-- Every reachable value with a nonzero denominator is canonical: all the
producing operations funnel through `normalize`, and unary plus and the
copies are identities. -/
theorem reachable_canonical (f : fraction) (hr : Reachable f) (hden : f.den ≠ 0) :
    Int.gcd f.num f.den = 1 ∧ 0 < f.den := by
  revert hden
  induction hr with
  | ctor n d g h =>
      intro hden
      exact normalize_canonical n d g h hden
  | add' a b g ra rb h iha ihb =>
      intro hden
      exact normalize_canonical _ _ g h hden
  | sub' a b g ra rb h iha ihb =>
      intro hden
      exact normalize_canonical _ _ g h hden
  | mul' a b g ra rb h iha ihb =>
      intro hden
      exact normalize_canonical _ _ g h hden
  | div' a b g ra rb h iha ihb =>
      intro hden
      exact normalize_canonical _ _ g h hden
  | addInt' a v g ra h iha =>
      intro hden
      rcases Option.bind_eq_some.mp h with ⟨b, hb, hab⟩
      exact normalize_canonical _ _ g hab hden
  | subInt' a v g ra h iha =>
      intro hden
      rcases Option.bind_eq_some.mp h with ⟨b, hb, hab⟩
      exact normalize_canonical _ _ g hab hden
  | mulInt' a v g ra h iha =>
      intro hden
      rcases Option.bind_eq_some.mp h with ⟨b, hb, hab⟩
      exact normalize_canonical _ _ g hab hden
  | divInt' a v g ra h iha =>
      intro hden
      rcases Option.bind_eq_some.mp h with ⟨b, hb, hab⟩
      exact normalize_canonical _ _ g hab hden
  | pos' a ra iha =>
      intro hden
      exact iha hden
  | neg' a g ra h iha =>
      intro hden
      exact normalize_canonical _ _ g h hden

/-- C1: every legal value produced by any constructor or arithmetic
operation of `fraction` satisfies the canonical-form invariant: the gcd of
the absolute values of numerator and denominator is 1, the denominator is
positive, and a zero numerator forces the pair (0, 1). -/
theorem canonical_invariant (f : fraction) (hr : Reachable f) (hleg : is_legal f = true) :
    Int.gcd f.num f.den = 1 ∧ 0 < f.den ∧ (f.num = 0 → f.num = 0 ∧ f.den = 1) := by
  have hden : f.den ≠ 0 := by simpa [is_legal] using hleg
  obtain ⟨hg, hpos⟩ := reachable_canonical f hr hden
  exact ⟨hg, hpos, fun h0 => ⟨h0, den_one_of_num_zero f hg hpos h0⟩⟩

/-- Witness for C1 at the value constructed from (15, 63). -/
theorem canonical_invariant_witness :
    Int.gcd (⟨5, 21⟩ : fraction).num (⟨5, 21⟩ : fraction).den = 1 ∧
      0 < (⟨5, 21⟩ : fraction).den ∧
      ((⟨5, 21⟩ : fraction).num = 0 →
        (⟨5, 21⟩ : fraction).num = 0 ∧ (⟨5, 21⟩ : fraction).den = 1) :=
  canonical_invariant ⟨5, 21⟩ (Reachable.ctor 15 63 ⟨5, 21⟩ (by decide)) (by decide)

/-- Raw pair of `a + b` as written in the spec table of §4.4. -/
def spec_add (a b : fraction) : Option fraction :=
  normalize (a.num * b.den + a.den * b.num) (a.den * b.den)

/-- Raw pair of `a - b` as written in the spec table of §4.4. -/
def spec_sub (a b : fraction) : Option fraction :=
  normalize (a.num * b.den - a.den * b.num) (a.den * b.den)

/-- Raw pair of `a * b` as written in the spec table of §4.4. -/
def spec_mul (a b : fraction) : Option fraction :=
  normalize (a.num * b.num) (a.den * b.den)

/-- Raw pair of `a / b` as written in the spec table of §4.4. -/
def spec_div (a b : fraction) : Option fraction :=
  normalize (a.num * b.den) (a.den * b.num)

/-- C2: each binary operator computes exactly the raw pair of the spec table
and then normalizes it, and a bare integer operand on the right is first
lifted to the pair (v, 1). -/
theorem arith_raw_pairs (a b : fraction) (v : Int) :
    add a b = spec_add a b ∧ sub a b = spec_sub a b ∧ mul a b = spec_mul a b ∧
      div a b = spec_div a b ∧ mk v 1 = some ⟨v, 1⟩ ∧
      addInt a v = add a ⟨v, 1⟩ ∧ subInt a v = sub a ⟨v, 1⟩ ∧
      mulInt a v = mul a ⟨v, 1⟩ ∧ divInt a v = div a ⟨v, 1⟩ := by
  refine ⟨rfl, rfl, rfl, rfl, mk_int_one v, ?_, ?_, ?_, ?_⟩
  · rw [addInt, mk_int_one]; rfl
  · rw [subInt, mk_int_one]; rfl
  · rw [mulInt, mk_int_one]; rfl
  · rw [divInt, mk_int_one]; rfl

/-- C4 counterexample: normalizing (6, 0) keeps the denominator 0 but does
not keep the numerator's magnitude, which is reduced from 6 to 1. -/
theorem den_zero_magnitude_cex :
    ∃ f, normalize 6 0 = some f ∧ f.den = 0 ∧ f.num ≠ 6 :=
  ⟨⟨1, 0⟩, by decide, by decide, by decide⟩

/-- C4 amended: for a pair (n, 0) with n nonzero, the denominator stays 0,
the numerator is reduced to its sign n / |n| (the sign is retained, the
magnitude is not), and the value is reported illegal; for (0, 0) the
normalization divides both fields by gcd(0, 0) = 0 and produces no value. -/
theorem den_zero_sign_only (n : Int) (hn : n ≠ 0) :
    (∃ f, normalize n 0 = some f ∧ f.den = 0 ∧ f.num = Int.sign n ∧
      is_legal f = false) ∧ normalize 0 0 = none := by
  refine ⟨⟨⟨Int.sign n, 0⟩, normalize_num_ne_zero_den_zero n hn, rfl, rfl, rfl⟩, ?_⟩
  exact (normalize_eq_none_iff 0 0).mpr ⟨rfl, rfl⟩

/-- Witness for the amended C4 at n = 6. -/
theorem den_zero_sign_only_witness :
    ((6 : Int) ≠ 0) ∧
      ((∃ f, normalize 6 0 = some f ∧ f.den = 0 ∧ f.num = Int.sign 6 ∧
        is_legal f = false) ∧ normalize 0 0 = none) :=
  ⟨by decide, den_zero_sign_only 6 (by decide)⟩

/-- C5: at the pair (0, 0) the normalization routine computes
g = gcd(abs(0), abs(0)) = 0 and then executes num_ / g and den_ / g, two
divisions by zero (undefined behaviour, modelled as none) — contrary to the
claim that no field is ever divided by zero when the denominator is 0.  The
pair (0, 0) is reachable, for instance as fraction(0, 0) or as
(0, 1) / (0, 1). -/
theorem normalize_zero_zero_divzero : normalize 0 0 = none := by decide

/-- C6: dividing the legal value (0, 1) by the legal value (0, 1), whose
numerator is zero, does not produce an illegal value: it reaches
normalize(0, 0), which divides both fields by gcd(0, 0) = 0 (undefined
behaviour, modelled as none).  The claim's concrete scenario does hold:
(3, 4) / (0, 1) is the illegal value (1, 0). -/
theorem div_num_zero_behavior :
    div ⟨0, 1⟩ ⟨0, 1⟩ = none ∧
      is_legal (⟨0, 1⟩ : fraction) = true ∧
      div ⟨3, 4⟩ ⟨0, 1⟩ = some ⟨1, 0⟩ ∧ is_legal (⟨1, 0⟩ : fraction) = false ∧
      is_legal (⟨3, 4⟩ : fraction) = true := by
  decide

/-- C9: the logical-negation operator returns true iff the numerator is
nonzero, the explicit boolean conversion returns true iff the numerator is
zero, and the two are each other's Boolean inverse. -/
theorem truthiness_polarity (f : fraction) :
    (lnot f = true ↔ f.num ≠ 0) ∧ (toBool f = true ↔ f.num = 0) ∧
      lnot f = !(toBool f) := by
  refine ⟨?_, ?_, ?_⟩
  · simp [lnot]
  · simp [toBool]
  · rfl

/-- C3: for every pair (n, d) with d nonzero, construction yields the unique
canonical representative of the fraction n / d — same rational value
(cross-multiplication), lowest terms, positive denominator — and the two
concrete scenarios of the spec hold. -/
theorem ctor_canonical_representative (n d : Int) (hd : d ≠ 0) :
    (∃ f, mk n d = some f ∧ f.num * d = n * f.den ∧ Int.gcd f.num f.den = 1 ∧
      0 < f.den ∧
      ∀ g : fraction, g.num * d = n * g.den → Int.gcd g.num g.den = 1 →
        0 < g.den → g = f) ∧
    mk 15 63 = some ⟨5, 21⟩ ∧ mk 4 (-6) = some ⟨-2, 3⟩ := by
  refine ⟨?_, by decide, by decide⟩
  obtain ⟨f, hf, hpos, hgcd, hcross⟩ := normalize_sound n d hd
  refine ⟨f, hf, hcross, hgcd, hpos, ?_⟩
  intro g hgc hggcd hgpos
  have h3 : g.num * f.den * d = f.num * g.den * d := by
    linear_combination f.den * hgc - g.den * hcross
  have hcross' : g.num * f.den = f.num * g.den := mul_right_cancel₀ hd h3
  obtain ⟨h4, h5⟩ :=
    canonical_eq_of_cross g.num g.den f.num f.den hgpos hpos hggcd hgcd hcross'
  exact fraction.ext h4 h5

/-- Witness for C3 at the pair (15, 63). -/
theorem ctor_canonical_representative_witness :
    ((63 : Int) ≠ 0) ∧
      ((∃ f, mk 15 63 = some f ∧ f.num * 63 = 15 * f.den ∧
        Int.gcd f.num f.den = 1 ∧ 0 < f.den ∧
        ∀ g : fraction, g.num * 63 = 15 * g.den → Int.gcd g.num g.den = 1 →
          0 < g.den → g = f) ∧
      mk 15 63 = some ⟨5, 21⟩ ∧ mk 4 (-6) = some ⟨-2, 3⟩) :=
  ⟨by decide, ctor_canonical_representative 15 63 (by decide)⟩

/-- C7: on two canonical (legal) values, exactly one of the relations
a < b, a == b, a > b holds, with the order cross-multiplicative and the
equality componentwise. -/
theorem order_trichotomy (a b : fraction) (ha : Canonical a) (hb : Canonical b) :
    (lt a b = true ∧ beq a b = false ∧ gt a b = false) ∨
      (lt a b = false ∧ beq a b = true ∧ gt a b = false) ∨
      (lt a b = false ∧ beq a b = false ∧ gt a b = true) := by
  have hbeq : beq a b = true ↔ a.num * b.den = b.num * a.den := by
    constructor
    · intro h
      have h' : a.num = b.num ∧ a.den = b.den := by simpa [beq] using h
      rw [h'.1, h'.2]
    · intro h
      obtain ⟨h1, h2⟩ :=
        canonical_eq_of_cross a.num a.den b.num b.den ha.2 hb.2 ha.1 hb.1 h
      simp [beq, h1, h2]
  rcases lt_trichotomy (a.num * b.den) (b.num * a.den) with h | h | h
  · refine Or.inl ⟨decide_eq_true h, ?_, ?_⟩
    · exact Bool.eq_false_iff.mpr (fun hc => absurd (hbeq.mp hc) (ne_of_lt h))
    · exact decide_eq_false (not_lt.mpr (le_of_lt h))
  · refine Or.inr (Or.inl ⟨?_, hbeq.mpr h, ?_⟩)
    · exact decide_eq_false (not_lt.mpr (le_of_eq h.symm))
    · exact decide_eq_false (not_lt.mpr (le_of_eq h))
  · refine Or.inr (Or.inr ⟨?_, ?_, decide_eq_true h⟩)
    · exact decide_eq_false (not_lt.mpr (le_of_lt h))
    · exact Bool.eq_false_iff.mpr (fun hc => absurd (hbeq.mp hc) (ne_of_gt h))

/-- Witness for C7 at the canonical values (1, 2) and (1, 3). -/
theorem order_trichotomy_witness :
    Canonical ⟨1, 2⟩ ∧ Canonical ⟨1, 3⟩ ∧
      ((lt ⟨1, 2⟩ ⟨1, 3⟩ = true ∧ beq ⟨1, 2⟩ ⟨1, 3⟩ = false ∧ gt ⟨1, 2⟩ ⟨1, 3⟩ = false) ∨
        (lt ⟨1, 2⟩ ⟨1, 3⟩ = false ∧ beq ⟨1, 2⟩ ⟨1, 3⟩ = true ∧ gt ⟨1, 2⟩ ⟨1, 3⟩ = false) ∨
        (lt ⟨1, 2⟩ ⟨1, 3⟩ = false ∧ beq ⟨1, 2⟩ ⟨1, 3⟩ = false ∧ gt ⟨1, 2⟩ ⟨1, 3⟩ = true)) :=
  ⟨by decide, by decide, order_trichotomy ⟨1, 2⟩ ⟨1, 3⟩ (by decide) (by decide)⟩

/-- C8: for canonical (legal) a and b with b.num nonzero, (a / b) * b
succeeds and compares equal to a under the componentwise operator==. -/
theorem div_mul_cancel_eq (a b : fraction) (ha : Canonical a) (hb : Canonical b)
    (hbn : b.num ≠ 0) :
    ∃ c r, div a b = some c ∧ mul c b = some r ∧ beq r a = true := by
  have hd1 : a.den * b.num ≠ 0 := mul_ne_zero (ne_of_gt ha.2) hbn
  obtain ⟨c, hc_eq, hc_pos, hc_gcd, hc_cross⟩ :=
    normalize_sound (a.num * b.den) (a.den * b.num) hd1
  have hd2 : c.den * b.den ≠ 0 := mul_ne_zero (ne_of_gt hc_pos) (ne_of_gt hb.2)
  obtain ⟨r, hr_eq, hr_pos, hr_gcd, hr_cross⟩ :=
    normalize_sound (c.num * b.num) (c.den * b.den) hd2
  have h3 : r.num * a.den * (c.den * b.den) = a.num * r.den * (c.den * b.den) := by
    linear_combination a.den * hr_cross + r.den * hc_cross
  have h4 : r.num * a.den = a.num * r.den := mul_right_cancel₀ hd2 h3
  obtain ⟨h5, h6⟩ :=
    canonical_eq_of_cross r.num r.den a.num a.den hr_pos ha.2 hr_gcd ha.1 h4
  exact ⟨c, r, hc_eq, hr_eq, by simp [beq, h5, h6]⟩

/-- Witness for C8 at a = (1, 2) and b = (3, 4). -/
theorem div_mul_cancel_eq_witness :
    Canonical ⟨1, 2⟩ ∧ Canonical ⟨3, 4⟩ ∧ (⟨3, 4⟩ : fraction).num ≠ 0 ∧
      (∃ c r, div ⟨1, 2⟩ ⟨3, 4⟩ = some c ∧ mul c ⟨3, 4⟩ = some r ∧
        beq r ⟨1, 2⟩ = true) :=
  ⟨by decide, by decide, by decide,
    div_mul_cancel_eq ⟨1, 2⟩ ⟨3, 4⟩ (by decide) (by decide) (by decide)⟩

/-- C10: for legal operands, addition, subtraction and multiplication always
yield legal results — the pre-normalization denominator is the nonzero
product of the two denominators, and normalization never turns a nonzero
denominator into zero — while division can produce an illegal value from
legal operands. -/
theorem legal_closed_arith (a b : fraction) (ha : a.den ≠ 0) (hb : b.den ≠ 0) :
    a.den * b.den ≠ 0 ∧
      (∃ r, add a b = some r ∧ is_legal r = true) ∧
      (∃ r, sub a b = some r ∧ is_legal r = true) ∧
      (∃ r, mul a b = some r ∧ is_legal r = true) ∧
      (∀ n d : Int, d ≠ 0 → ∀ f, normalize n d = some f → f.den ≠ 0) ∧
      div ⟨3, 4⟩ ⟨0, 1⟩ = some ⟨1, 0⟩ ∧ is_legal (⟨1, 0⟩ : fraction) = false := by
  have hprod : a.den * b.den ≠ 0 := mul_ne_zero ha hb
  refine ⟨hprod, ?_, ?_, ?_, ?_, by decide, rfl⟩
  · obtain ⟨r, hr, hpos, _, _⟩ :=
      normalize_sound (a.num * b.den + a.den * b.num) (a.den * b.den) hprod
    exact ⟨r, hr, by simp [is_legal, bne]; exact ne_of_gt hpos⟩
  · obtain ⟨r, hr, hpos, _, _⟩ :=
      normalize_sound (a.num * b.den - a.den * b.num) (a.den * b.den) hprod
    exact ⟨r, hr, by simp [is_legal, bne]; exact ne_of_gt hpos⟩
  · obtain ⟨r, hr, hpos, _, _⟩ :=
      normalize_sound (a.num * b.num) (a.den * b.den) hprod
    exact ⟨r, hr, by simp [is_legal, bne]; exact ne_of_gt hpos⟩
  · intro n d hd f hf
    obtain ⟨f', hf', hpos, _, _⟩ := normalize_sound n d hd
    rw [hf] at hf'
    cases hf'
    exact ne_of_gt hpos

/-- Witness for C10 at the legal values (1, 2) and (1, 3). -/
theorem legal_closed_arith_witness :
    ((⟨1, 2⟩ : fraction).den ≠ 0) ∧ ((⟨1, 3⟩ : fraction).den ≠ 0) ∧
      ((⟨1, 2⟩ : fraction).den * (⟨1, 3⟩ : fraction).den ≠ 0 ∧
        (∃ r, add ⟨1, 2⟩ ⟨1, 3⟩ = some r ∧ is_legal r = true) ∧
        (∃ r, sub ⟨1, 2⟩ ⟨1, 3⟩ = some r ∧ is_legal r = true) ∧
        (∃ r, mul ⟨1, 2⟩ ⟨1, 3⟩ = some r ∧ is_legal r = true) ∧
        (∀ n d : Int, d ≠ 0 → ∀ f, normalize n d = some f → f.den ≠ 0) ∧
        div ⟨3, 4⟩ ⟨0, 1⟩ = some ⟨1, 0⟩ ∧ is_legal (⟨1, 0⟩ : fraction) = false) :=
  ⟨by decide, by decide,
    legal_closed_arith ⟨1, 2⟩ ⟨1, 3⟩ (by decide) (by decide)⟩

end Holt59
